import Mathlib

/-! Verification of the agent-invocation and change-reconciliation pipeline
of this repository (`server.js`, `src/App.js`).

The embedding models file stores as functions from paths to optional
contents, stdout text as lists of characters, and the request handlers as
pure functions over those states, translated clause-by-clause from the
JavaScript source. -/

namespace Schema

/-- A file submitted to the pipeline: the `{filePath, content}` records
received by `/api/code-agent` and `/api/cli-inject`. -/
structure FileRecord where
  filePath : String
  content : String
deriving DecidableEq

/-- An entry of the change detector's result: `{filePath, modifiedContent}`
as pushed onto `modifiedFiles` in the `child.on('close')` handlers. -/
structure ModifiedFile where
  filePath : String
  modifiedContent : String
deriving DecidableEq

/-- A file store: map from path to content, `none` meaning the file is
absent. -/
abbrev Store := String → Option String

/-- JavaScript `filePath.replace(/\\/g, '/')`, the normalization applied both when the
snapshot map is built and when the detector computes relative paths. -/
def normalizeSlashes (s : String) : String :=
  String.mk (s.toList.map fun c => if c = '\\' then '/' else c)

/-- JavaScript `str.split(sep)` on a list of characters: the list of
(possibly empty) segments between occurrences of `sep`. -/
def splitOnChar (sep : Char) : List Char → List (List Char)
  | [] => [[]]
  | c :: cs =>
    match splitOnChar sep cs with
    | [] => [[c]]
    | l :: ls => if c = sep then [] :: l :: ls else (c :: l) :: ls

/-- Node `path.basename`: the last `/`-separated segment of a path. -/
def baseName (s : String) : String :=
  String.mk ((splitOnChar '/' s.toList).getLastD [])

/-- The `/`-separated segments of a relative path string. -/
def pathSegs (s : String) : List String :=
  (splitOnChar '/' s.toList).map String.mk

/-- Node path normalization over segments, resolving against an absolute
base path `acc`: empty and `.` segments are dropped, a `..` segment removes
the preceding segment (a no-op at the filesystem root, as for an absolute
path). -/
def resolveSegs : List String → List String → List String
  | acc, [] => acc
  | acc, seg :: rest =>
    if seg = "" ∨ seg = "." then resolveSegs acc rest
    else if seg = ".." then resolveSegs acc.dropLast rest
    else resolveSegs (acc ++ [seg]) rest

/-- Node `path.join(base, rel)` for an absolute `base` given as segments. -/
def joinPath (base : List String) (rel : String) : List String :=
  resolveSegs base (pathSegs rel)

/-- The fixed workspace root `path.join(__dirname, 'USER_FILES')`, with the
server directory abstracted as one segment. -/
def userFilesDir : List String := ["SERVER_DIR", "USER_FILES"]

/-- Whether path `p` lies under the directory `dir`. -/
def underDir (dir p : List String) : Bool := decide (p.take dir.length = dir)

/-- C4: the workspace population loop writes each submitted file at
`path.join(userFilesDir, file.filePath)` with no rejection or sanitization
of `..` segments; the path `../escape.txt` therefore resolves to a location
outside the workspace root and the file is written there. The hardening the
claim describes is absent from the code. -/
theorem joinPath_escapes_workspace :
    joinPath userFilesDir "../escape.txt" = ["SERVER_DIR", "escape.txt"] ∧
    underDir userFilesDir (joinPath userFilesDir "../escape.txt") = false := by
  decide

/-! ### The approve/commit path (`App.js`)

`handleApproveChanges` loops over `pendingChanges` and calls
`writeFileToDirectoryHandle(directoryHandle, filePath, modifiedContent)`
for each entry; that helper creates intermediate directories, opens the
file with `create: true`, and replaces its content. -/

/-- One write through `writeFileToDirectoryHandle`: the file at `p` is
created if needed and its content replaced by `c`. -/
def writeFileToStore (s : Store) (p c : String) : Store :=
  fun q => if q = p then some c else s q

/-- The commit loop of `handleApproveChanges` in the run where every write
succeeds: write each pending `ModifiedFile`'s `modifiedContent` to its
path, in order. -/
def applyChangeSet (s : Store) (cs : List ModifiedFile) : Store :=
  cs.foldl (fun t mf => writeFileToStore t mf.filePath mf.modifiedContent) s

/-- The content a commit leaves at `p` is the content of the last pending
entry for `p`, or the prior content when no entry names `p`. -/
theorem applyChangeSet_apply (s : Store) (cs : List ModifiedFile) (p : String) :
    applyChangeSet s cs p =
      match cs.reverse.find? (fun mf => mf.filePath == p) with
      | some mf => some mf.modifiedContent
      | none => s p := by
  induction cs using List.reverseRecOn generalizing s with
  | nil => simp [applyChangeSet]
  | append_singleton l mf ih =>
    rw [applyChangeSet, List.foldl_append]
    simp only [List.foldl_cons, List.foldl_nil, List.reverse_append,
      List.reverse_cons, List.reverse_nil, List.nil_append, List.cons_append,
      List.find?]
    by_cases hp : mf.filePath = p
    · simp [writeFileToStore, hp]
    · have hbeq : (mf.filePath == p) = false := by
        simpa using hp
      rw [hbeq]
      simp only [writeFileToStore]
      rw [if_neg (fun h => hp h.symm)]
      exact ih s

/-- C8: committing the same PendingChangeSet a second time yields the same
final content at every path as committing it once — each write stores
`modifiedContent` verbatim, so re-applying identical content changes
nothing. -/
theorem applyChangeSet_idempotent (s : Store) (cs : List ModifiedFile) (p : String) :
    applyChangeSet (applyChangeSet s cs) cs p = applyChangeSet s cs p := by
  rw [applyChangeSet_apply (applyChangeSet s cs) cs p]
  cases h : cs.reverse.find? (fun mf => mf.filePath == p) with
  | none => rfl
  | some mf =>
    rw [applyChangeSet_apply s cs p, h]

/-! ### The change detector (`child.on('close')` diff loops)

After the agent exits with code 0, the handler enumerates every file under
`USER_FILES` (`getAllFiles`), computes each file's workspace-relative path
with backslashes normalized to `/`, looks that path up in
`originalFileContents`, and pushes `{filePath, modifiedContent}` whenever
`originalContent !== newContent` — in particular whenever the snapshot has
no entry (`.get` returns `undefined`). The workspace is modelled as the
enumeration result: a list of (relative path, final content) pairs. -/

/-- The diff loop of `/api/code-agent`: keep each enumerated workspace file
whose content differs from the snapshot entry at its normalized relative
path (a missing snapshot entry always differs). -/
def diffWorkspace (snap : Store) (ws : List (String × String)) : List ModifiedFile :=
  ws.filterMap fun e =>
    if snap (normalizeSlashes e.1) = some e.2 then none
    else some ⟨normalizeSlashes e.1, e.2⟩

/-- The diff loop of `/api/cli-inject`: identical to `diffWorkspace` except
that any file whose basename is `GEMINI.md` is skipped with `continue`
before the content comparison. -/
def diffCliInject (snap : Store) (ws : List (String × String)) : List ModifiedFile :=
  ws.filterMap fun e =>
    if baseName (normalizeSlashes e.1) = "GEMINI.md" then none
    else if snap (normalizeSlashes e.1) = some e.2 then none
    else some ⟨normalizeSlashes e.1, e.2⟩

/-- C1: for a workspace enumeration with distinct normalized paths, a
workspace file appears in the detector's result exactly when its final
content differs from the snapshot entry at its normalized relative path —
a file with no snapshot entry is included, a byte-identical file is
excluded — and any result entry for that path carries the file's final
workspace content as `modifiedContent`. -/
theorem diffWorkspace_mem_iff (snap : Store) (ws : List (String × String))
    (hnd : (ws.map fun e => normalizeSlashes e.1).Nodup)
    (p c : String) (hmem : (p, c) ∈ ws) :
    ((⟨normalizeSlashes p, c⟩ : ModifiedFile) ∈ diffWorkspace snap ws ↔
      snap (normalizeSlashes p) ≠ some c) ∧
    ∀ mf ∈ diffWorkspace snap ws,
      mf.filePath = normalizeSlashes p → mf.modifiedContent = c := by
  constructor
  · constructor
    · intro hin
      rcases List.mem_filterMap.mp hin with ⟨e, he, hf⟩
      by_cases hs : snap (normalizeSlashes e.1) = some e.2
      · rw [if_pos hs] at hf
        exact absurd hf (by simp)
      · rw [if_neg hs] at hf
        have hpath : normalizeSlashes e.1 = normalizeSlashes p := by
          have := congrArg ModifiedFile.filePath (Option.some.inj hf)
          simpa using this
        have hcont : e.2 = c := by
          have := congrArg ModifiedFile.modifiedContent (Option.some.inj hf)
          simpa using this
        have heq : e = (p, c) :=
          List.inj_on_of_nodup_map hnd he hmem hpath
        rw [heq] at hs
        simpa using hs
    · intro hne
      refine List.mem_filterMap.mpr ⟨(p, c), hmem, ?_⟩
      rw [if_neg hne]
  · intro mf hin hpath
    rcases List.mem_filterMap.mp hin with ⟨e, he, hf⟩
    by_cases hs : snap (normalizeSlashes e.1) = some e.2
    · rw [if_pos hs] at hf
      exact absurd hf (by simp)
    · rw [if_neg hs] at hf
      have hfe := Option.some.inj hf
      have hpath' : normalizeSlashes e.1 = normalizeSlashes p := by
        rw [← hpath, ← hfe]
      have heq : e = (p, c) := List.inj_on_of_nodup_map hnd he hmem hpath'
      have : mf.modifiedContent = e.2 := by rw [← hfe]
      rw [this, heq]

/-- C1 witness: in a workspace holding an unchanged file, a content-modified
file, and a file absent from the snapshot, the modified file is reported
exactly because its snapshot entry differs. -/
theorem diffWorkspace_mem_iff_witness :
    ((("mod.txt", "new") ∈ [("same.txt", "keep"), ("mod.txt", "new"), ("fresh.txt", "x")]) ∧
      ((["same.txt", "mod.txt", "fresh.txt"].map normalizeSlashes).Nodup)) ∧
    ((⟨normalizeSlashes "mod.txt", "new"⟩ : ModifiedFile) ∈
        diffWorkspace
          (fun q => if q = "same.txt" then some "keep"
            else if q = "mod.txt" then some "old" else none)
          [("same.txt", "keep"), ("mod.txt", "new"), ("fresh.txt", "x")] ↔
      (fun q => if q = "same.txt" then some "keep"
        else if q = "mod.txt" then some "old" else none : Store)
          (normalizeSlashes "mod.txt") ≠ some "new") :=
  ⟨⟨by decide, by decide⟩,
    (diffWorkspace_mem_iff
      (fun q => if q = "same.txt" then some "keep"
        else if q = "mod.txt" then some "old" else none)
      [("same.txt", "keep"), ("mod.txt", "new"), ("fresh.txt", "x")]
      (by decide) "mod.txt" "new" (by decide)).1⟩

/-- C9: every entry of the detector's result names (and carries the content
of) a file enumerated in the final workspace tree; consequently a path
present in no workspace file — such as a snapshot path whose file the agent
deleted — never appears in the result. -/
theorem diffWorkspace_reports_existing_only (snap : Store)
    (ws : List (String × String)) (mf : ModifiedFile)
    (h : mf ∈ diffWorkspace snap ws) :
    (∃ e ∈ ws, mf.filePath = normalizeSlashes e.1 ∧ mf.modifiedContent = e.2) ∧
    ∀ q : String, (∀ e ∈ ws, normalizeSlashes e.1 ≠ q) → mf.filePath ≠ q := by
  rcases List.mem_filterMap.mp h with ⟨e, he, hf⟩
  by_cases hs : snap (normalizeSlashes e.1) = some e.2
  · rw [if_pos hs] at hf
    exact absurd hf (by simp)
  · rw [if_neg hs] at hf
    have hfe := Option.some.inj hf
    constructor
    · exact ⟨e, he, by rw [← hfe], by rw [← hfe]⟩
    · intro q hq hcontra
      exact hq e he (by rw [← hcontra, ← hfe])

/-- C9 witness: with a snapshot entry for `gone.txt` whose file the agent
deleted from the workspace, the result of the diff never names
`gone.txt`. -/
theorem diffWorkspace_reports_existing_only_witness :
    ((⟨"kept.txt", "new"⟩ : ModifiedFile) ∈
      diffWorkspace (fun q => if q = "gone.txt" then some "old" else none)
        [("kept.txt", "new")]) ∧
    (⟨"kept.txt", "new"⟩ : ModifiedFile).filePath ≠ "gone.txt" :=
  ⟨by decide,
    (diffWorkspace_reports_existing_only
      (fun q => if q = "gone.txt" then some "old" else none)
      [("kept.txt", "new")] ⟨"kept.txt", "new"⟩ (by decide)).2
      "gone.txt" (by decide)⟩

/-- C10: in the `/api/cli-inject` diff loop, no result entry ever has
basename `GEMINI.md` — such workspace files are skipped unconditionally,
before the content comparison, so they are excluded even when their content
differs from the snapshot or they have no snapshot entry at all. -/
theorem diffCliInject_excludes_gemini (snap : Store)
    (ws : List (String × String)) (mf : ModifiedFile)
    (h : mf ∈ diffCliInject snap ws) :
    ¬ baseName mf.filePath = "GEMINI.md" := by
  rcases List.mem_filterMap.mp h with ⟨e, he, hf⟩
  by_cases hb : baseName (normalizeSlashes e.1) = "GEMINI.md"
  · rw [if_pos hb] at hf
    exact absurd hf (by simp)
  · rw [if_neg hb] at hf
    by_cases hs : snap (normalizeSlashes e.1) = some e.2
    · rw [if_pos hs] at hf
      exact absurd hf (by simp)
    · rw [if_neg hs] at hf
      have hfe := Option.some.inj hf
      intro hcontra
      exact hb (by rw [← hcontra, ← hfe])

/-- C10 witness: with an empty snapshot (so `app/GEMINI.md` has no snapshot
entry and would otherwise count as modified), the cli-inject diff reports
the other file and its reported entry is not a `GEMINI.md`. -/
theorem diffCliInject_excludes_gemini_witness :
    ((⟨"a.txt", "y"⟩ : ModifiedFile) ∈
      diffCliInject (fun _ => none) [("app/GEMINI.md", "x"), ("a.txt", "y")]) ∧
    ¬ baseName (⟨"a.txt", "y"⟩ : ModifiedFile).filePath = "GEMINI.md" :=
  ⟨by decide,
    diffCliInject_excludes_gemini (fun _ => none)
      [("app/GEMINI.md", "x"), ("a.txt", "y")] ⟨"a.txt", "y"⟩ (by decide)⟩

/-! ### Stdout forwarding (`child.stdout.on('data')` in `/api/code-agent`)

Each arriving chunk is handled by
`str.split('\n').filter(line => line.trim() !== '')`, and each surviving
line is written as one `{stdout: line}` record. There is no buffer carried
across chunks. -/

/-- JavaScript `line.trim() !== ''`: the line contains a non-whitespace character. -/
def jsNonBlank (l : List Char) : Bool := l.any fun c => !c.isWhitespace

/-- The records one stdout chunk produces: split on newlines, drop
whitespace-only segments. -/
def emitChunk (chunk : List Char) : List (List Char) :=
  (splitOnChar '\n' chunk).filter jsNonBlank

/-- The full ProgressLine sequence of a run: each chunk is processed
independently, in arrival order. -/
def processChunks : List (List Char) → List (List Char)
  | [] => []
  | c :: rest => emitChunk c ++ processChunks rest

/-- The byte stream the process wrote, i.e. the concatenation of the
chunks. -/
def concatChunks : List (List Char) → List Char
  | [] => []
  | c :: rest => c ++ concatChunks rest

theorem splitOnChar_cons_eq (sep c : Char) {cs : List Char} {l : List Char}
    {ls : List (List Char)} (h : splitOnChar sep cs = l :: ls) :
    splitOnChar sep (c :: cs) =
      if c = sep then [] :: l :: ls else (c :: l) :: ls := by
  have base : splitOnChar sep (c :: cs) =
      match splitOnChar sep cs with
      | [] => [[c]]
      | l :: ls => if c = sep then [] :: l :: ls else (c :: l) :: ls := rfl
  rw [base, h]

theorem splitOnChar_ne_nil (sep : Char) : ∀ l : List Char, splitOnChar sep l ≠ []
  | [] => by simp [splitOnChar]
  | c :: cs => by
    cases h : splitOnChar sep cs with
    | nil => exact absurd h (splitOnChar_ne_nil sep cs)
    | cons l ls =>
      rw [splitOnChar_cons_eq sep c h]
      split <;> simp

theorem two_le_splitOnChar_length (sep : Char) :
    ∀ a : List Char, a.getLast? = some sep → 2 ≤ (splitOnChar sep a).length
  | [], h => by simp at h
  | [c], h => by
    have hc : c = sep := by simpa using h
    have h0 : splitOnChar sep ([] : List Char) = [[]] := rfl
    rw [splitOnChar_cons_eq sep c h0, if_pos hc]
    simp
  | c :: c' :: cs, h => by
    have h' : (c' :: cs).getLast? = some sep := by
      rw [List.getLast?_cons_cons] at h
      exact h
    have ih := two_le_splitOnChar_length sep (c' :: cs) h'
    cases hs : splitOnChar sep (c' :: cs) with
    | nil => exact absurd hs (splitOnChar_ne_nil sep _)
    | cons l ls =>
      rw [hs] at ih
      rw [splitOnChar_cons_eq sep c hs]
      by_cases hc : c = sep
      · rw [if_pos hc]
        simp
      · rw [if_neg hc]
        simpa using ih

theorem splitOnChar_getLast (sep : Char) :
    ∀ a : List Char, a.getLast? = some sep →
      (splitOnChar sep a).getLast? = some []
  | [], h => by simp at h
  | [c], h => by
    have hc : c = sep := by simpa using h
    have h0 : splitOnChar sep ([] : List Char) = [[]] := rfl
    rw [splitOnChar_cons_eq sep c h0, if_pos hc]
    rfl
  | c :: c' :: cs, h => by
    have h' : (c' :: cs).getLast? = some sep := by
      rw [List.getLast?_cons_cons] at h
      exact h
    have ih := splitOnChar_getLast sep (c' :: cs) h'
    have hlen := two_le_splitOnChar_length sep (c' :: cs) h'
    cases hs : splitOnChar sep (c' :: cs) with
    | nil => exact absurd hs (splitOnChar_ne_nil sep _)
    | cons l ls =>
      rw [hs] at ih hlen
      cases ls with
      | nil => simp at hlen
      | cons l2 ls2 =>
        rw [splitOnChar_cons_eq sep c hs]
        by_cases hc : c = sep
        · rw [if_pos hc, List.getLast?_cons_cons]
          exact ih
        · rw [if_neg hc, List.getLast?_cons_cons]
          rw [List.getLast?_cons_cons] at ih
          exact ih

theorem splitOnChar_append (sep : Char) :
    ∀ a b : List Char, a.getLast? = some sep →
      splitOnChar sep (a ++ b) =
        (splitOnChar sep a).dropLast ++ splitOnChar sep b
  | [], _, h => by simp at h
  | [c], b, h => by
    have hc : c = sep := by simpa using h
    cases hb : splitOnChar sep b with
    | nil => exact absurd hb (splitOnChar_ne_nil sep b)
    | cons m ms =>
      have h0 : splitOnChar sep ([] : List Char) = [[]] := rfl
      have h1 : splitOnChar sep [c] = [[], []] := by
        rw [splitOnChar_cons_eq sep c h0, if_pos hc]
      rw [List.singleton_append, splitOnChar_cons_eq sep c hb, if_pos hc, h1]
      rfl
  | c :: c' :: cs, b, h => by
    have h' : (c' :: cs).getLast? = some sep := by
      rw [List.getLast?_cons_cons] at h
      exact h
    have ih := splitOnChar_append sep (c' :: cs) b h'
    have hlen := two_le_splitOnChar_length sep (c' :: cs) h'
    cases hs : splitOnChar sep (c' :: cs) with
    | nil => exact absurd hs (splitOnChar_ne_nil sep _)
    | cons l ls =>
      rw [hs] at ih hlen
      cases ls with
      | nil => simp at hlen
      | cons l2 ls2 =>
        have key : splitOnChar sep ((c' :: cs) ++ b) =
            l :: ((l2 :: ls2).dropLast ++ splitOnChar sep b) := by
          rw [ih, List.dropLast_cons₂, List.cons_append]
        have lhs : splitOnChar sep ((c :: c' :: cs) ++ b) =
            if c = sep then
              [] :: l :: ((l2 :: ls2).dropLast ++ splitOnChar sep b)
            else (c :: l) :: ((l2 :: ls2).dropLast ++ splitOnChar sep b) := by
          rw [List.cons_append, splitOnChar_cons_eq sep c key]
        rw [lhs, splitOnChar_cons_eq sep c hs]
        by_cases hc : c = sep
        · rw [if_pos hc, if_pos hc, List.dropLast_cons₂, List.dropLast_cons₂]
          simp
        · rw [if_neg hc, if_neg hc, List.dropLast_cons₂]
          simp

theorem emitChunk_append (a b : List Char) (h : a.getLast? = some '\n') :
    emitChunk (a ++ b) = emitChunk a ++ emitChunk b := by
  have hne := splitOnChar_ne_nil '\n' a
  have hlast := splitOnChar_getLast '\n' a h
  unfold emitChunk
  rw [splitOnChar_append '\n' a b h, List.filter_append]
  congr 1
  conv_rhs => rw [← List.dropLast_append_getLast hne]
  rw [List.filter_append]
  have hg : (splitOnChar '\n' a).getLast hne = [] := by
    rw [List.getLast?_eq_getLast_of_ne_nil hne] at hlast
    exact Option.some.inj hlast
  rw [hg]
  simp [jsNonBlank]

/-- C3 (amended): the stdout handler splits each arriving chunk on
newlines independently and forwards each non-whitespace segment as one
ProgressLine in arrival order; it performs no line assembly across chunk
boundaries. Consequently, whenever every chunk is newline-terminated (so no
line spans a chunk boundary), the emitted ProgressLines are exactly the
non-blank newline-separated lines of the process's entire output, in
order. -/
theorem processChunks_assembled (chunks : List (List Char))
    (h : ∀ c ∈ chunks, c.getLast? = some '\n') :
    processChunks chunks = emitChunk (concatChunks chunks) := by
  induction chunks with
  | nil => simp [processChunks, concatChunks, emitChunk, splitOnChar, jsNonBlank]
  | cons c rest ih =>
    have hc := h c (List.mem_cons_self c rest)
    have hrest : ∀ x ∈ rest, x.getLast? = some '\n' :=
      fun x hx => h x (List.mem_cons_of_mem c hx)
    show emitChunk c ++ processChunks rest = emitChunk (c ++ concatChunks rest)
    rw [ih hrest, emitChunk_append c _ hc]

/-- C3 witness: for the newline-terminated chunks `"one\n"` and
`"two\nthree\n"`, per-chunk processing emits exactly the lines of the
concatenated output. -/
theorem processChunks_assembled_witness :
    processChunks [String.toList "one\n", String.toList "two\nthree\n"] =
      emitChunk (concatChunks
        [String.toList "one\n", String.toList "two\nthree\n"]) :=
  processChunks_assembled _ (by decide)

/-- C3 counterexample: the claim's cross-chunk line assembly does not
happen. The single line `hi!` arriving split over the chunks `"hi"` and
`"!\n"` is emitted as the two ProgressLines `hi` and `!`, not as the single
assembled ProgressLine `hi!`. -/
theorem processChunks_splits_across_chunks :
    processChunks [String.toList "hi", String.toList "!\n"] =
      [String.toList "hi", String.toList "!"] ∧
    processChunks [String.toList "hi", String.toList "!\n"] ≠
      [String.toList "hi!"] := by
  decide

/-! ### The streamed response of `/api/code-agent`

`res.setHeader` alone does not send headers; `res.headersSent` becomes true
once the first `{stdout}` record is written. In `child.on('close')`: a
non-zero exit code yields `res.status(500).json(...)` only when
`!res.headersSent`, and otherwise just `res.end()`; a zero exit code
appends exactly one `{modifiedFiles}` record computed by the diff loop. -/

/-- One newline-delimited JSON record of the response stream. -/
inductive NdRecord where
  | stdoutRec (line : List Char)
  | modifiedRec (files : List ModifiedFile)
deriving DecidableEq

/-- The complete response of one `/api/code-agent` invocation that passed
input validation: HTTP status and the sequence of streamed records. -/
structure AgentHttpResponse where
  status : Nat
  records : List NdRecord
deriving DecidableEq

/-- The response produced for a run whose agent process wrote `chunks` to
stdout and exited with `exitCode`, with `snap` the snapshot and `ws` the
final workspace enumeration, translated from the `stdout`/`close` handlers
of `/api/code-agent`. -/
def codeAgentResponse (chunks : List (List Char)) (exitCode : Int)
    (snap : Store) (ws : List (String × String)) : AgentHttpResponse :=
  let recs := (processChunks chunks).map NdRecord.stdoutRec
  if exitCode ≠ 0 then
    if recs = [] then ⟨500, []⟩
    else ⟨200, recs⟩
  else ⟨200, recs ++ [NdRecord.modifiedRec (diffWorkspace snap ws)]⟩

/-- C2: demonstration against the claim. When the agent writes one stdout
line and then exits with code 1, `res.headersSent` is already true, so the
close handler's error branch is skipped and the stream simply ends: HTTP
status 200 with only the `{stdout}` record — no `{modifiedFiles}` record
and no failure indicator, the silent loss of results the spec disallows. -/
theorem codeAgentResponse_silent_failure :
    (codeAgentResponse [String.toList "working\n"] 1 (fun _ => none) []).status
        = 200 ∧
    (codeAgentResponse [String.toList "working\n"] 1 (fun _ => none) []).records
        = [NdRecord.stdoutRec (String.toList "working")] := by
  decide

/-! ### Workspace preparation (`/api/code-agent`, lines 300–310)

`await fs.rm(userFilesDir, {recursive: true, force: true})`, then
`fs.mkdir`, then for each file `fs.mkdir(path.dirname(...), {recursive:
true})` and `fs.writeFile(path.join(userFilesDir, file.filePath),
file.content)` — content written verbatim, parent directories created. The
server filesystem is modelled as a map from resolved segment paths to
contents. -/

/-- The server's filesystem: map from resolved path segments to content. -/
abbrev SegStore := List String → Option String

/-- Node `fs.writeFile`: create or replace the file at `k` with content `v`. -/
def writeSeg (s : SegStore) (k : List String) (v : String) : SegStore :=
  fun q => if q = k then some v else s q

/-- Node `fs.rm(dir, {recursive: true, force: true})`: remove every file under
`dir`. -/
def wipeDir (s : SegStore) (dir : List String) : SegStore :=
  fun q => if underDir dir q then none else s q

/-- The population loop: write each submitted file at
`path.join(userFilesDir, file.filePath)`, in order. -/
def writeAll (t : SegStore) : List FileRecord → SegStore
  | [] => t
  | f :: rest => writeAll (writeSeg t (joinPath userFilesDir f.filePath) f.content) rest

/-- Workspace preparation: wipe-then-recreate the scratch directory, then
populate it from the submitted files. -/
def prepareWorkspace (s : SegStore) (files : List FileRecord) : SegStore :=
  writeAll (wipeDir s userFilesDir) files

theorem writeAll_of_not_written :
    ∀ (files : List FileRecord) (t : SegStore) (k : List String),
      k ∉ files.map (fun f => joinPath userFilesDir f.filePath) →
      writeAll t files k = t k
  | [], _, _, _ => rfl
  | f :: rest, t, k, hk => by
    have hne : k ≠ joinPath userFilesDir f.filePath := by
      intro h
      exact hk (by simp [h])
    have hrest : k ∉ rest.map (fun f => joinPath userFilesDir f.filePath) := by
      intro h
      exact hk (by simp [h])
    rw [writeAll, writeAll_of_not_written rest _ k hrest, writeSeg, if_neg hne]

/-- C7: for a FileRecord list whose paths are `..`-free and resolve to
pairwise-distinct workspace locations, preparing the workspace and then
immediately reading back each submitted path yields exactly the submitted
content for every file. -/
theorem prepare_readback (s : SegStore) (files : List FileRecord)
    (hnd : (files.map fun f => joinPath userFilesDir f.filePath).Nodup)
    (hdd : ∀ f ∈ files, ".." ∉ pathSegs f.filePath)
    (f : FileRecord) (hf : f ∈ files) :
    prepareWorkspace s files (joinPath userFilesDir f.filePath) = some f.content := by
  rw [prepareWorkspace]
  generalize wipeDir s userFilesDir = t
  induction files generalizing t with
  | nil => exact absurd hf (List.not_mem_nil f)
  | cons g rest ih =>
    rw [List.map_cons, List.nodup_cons] at hnd
    rcases List.mem_cons.mp hf with hfg | hfr
    · subst hfg
      rw [writeAll, writeAll_of_not_written rest _ _ hnd.1, writeSeg, if_pos rfl]
    · exact ih hnd.2 (fun x hx => hdd x (List.mem_cons_of_mem g hx)) hfr _

/-- C7 witness: two concrete files, one in a subdirectory, read back
byte-identically after preparation. -/
theorem prepare_readback_witness :
    prepareWorkspace (fun _ => none)
        [⟨"a.txt", "hello"⟩, ⟨"docs/b.txt", "world"⟩]
        (joinPath userFilesDir "docs/b.txt") = some "world" :=
  prepare_readback (fun _ => none)
    [⟨"a.txt", "hello"⟩, ⟨"docs/b.txt", "world"⟩]
    (by decide) (by decide) ⟨"docs/b.txt", "world"⟩ (by decide)

/-! ### The propose phase and the true store (`App.js`)

The caller's true file store is the directory behind `directoryHandle`,
reachable only through the File System Access API. During the propose phase
(`handleCodeAgent`) the client calls
`readAllFilesFromDirectoryHandle` — `entry.getFile()` / `file.text()`
reads — posts the files to the server, and stores the streamed result in
`pendingChanges`; the sole writing primitive,
`writeFileToDirectoryHandle`, is invoked only from `handleApproveChanges`.
Each client routine is translated into the sequence of File System Access
operations it performs. -/

/-- One File System Access API operation on the caller's true store. -/
inductive FsOp where
  | readOp (p : String)
  | writeOp (p c : String)
deriving DecidableEq

/-- Whether an operation mutates the true store. -/
def FsOp.isWrite : FsOp → Bool
  | .writeOp _ _ => true
  | .readOp _ => false

/-- The operations of `readAllFilesFromDirectoryHandle`: one read per
enumerated file. -/
def readAllFilesOps (dir : List (String × String)) : List FsOp :=
  dir.map fun e => FsOp.readOp e.1

/-- The true-store operations of the whole propose phase
(`handleCodeAgent`): enumerate and read the selected directory; the fetch,
the NDJSON parsing and the `setPendingChanges` state update touch no
file. -/
def handleCodeAgentOps (dir : List (String × String)) : List FsOp :=
  readAllFilesOps dir

/-- The true-store operations of `handleApproveChanges`: one write per
pending `ModifiedFile`, in order. -/
def handleApproveChangesOps (pending : List ModifiedFile) : List FsOp :=
  pending.map fun mf => FsOp.writeOp mf.filePath mf.modifiedContent

/-- Interpret one operation against the true store. -/
def applyFsOp (s : Store) : FsOp → Store
  | .readOp _ => s
  | .writeOp p c => writeFileToStore s p c

/-- Interpret an operation sequence against the true store. -/
def applyFsOps (s : Store) : List FsOp → Store
  | [] => s
  | op :: rest => applyFsOps (applyFsOp s op) rest

/-- C5: the propose phase performs no write on the caller's true store —
every operation it issues is a read, and interpreting its operation
sequence leaves the true store's content unchanged at every path. Writes
occur only in the explicit commit (`handleApproveChangesOps`). -/
theorem propose_phase_no_write (dir : List (String × String)) (t : Store)
    (p : String) (op : FsOp) (hop : op ∈ handleCodeAgentOps dir) :
    op.isWrite = false ∧ applyFsOps t (handleCodeAgentOps dir) p = t p := by
  constructor
  · rcases List.mem_map.mp hop with ⟨e, _, he⟩
    rw [← he]
    rfl
  · rw [handleCodeAgentOps]
    clear hop
    induction dir generalizing t with
    | nil => rfl
    | cons e rest ih => exact ih (applyFsOp t (FsOp.readOp e.1))

/-- C5 witness: for a one-file true store, the propose phase's only
operation is a read and the store is unchanged at that file's path. -/
theorem propose_phase_no_write_witness :
    (FsOp.readOp "a.txt" ∈ handleCodeAgentOps [("a.txt", "x")]) ∧
    ((FsOp.readOp "a.txt").isWrite = false ∧
      applyFsOps (fun q => if q = "a.txt" then some "x" else none)
        (handleCodeAgentOps [("a.txt", "x")]) "a.txt" =
      (fun q => if q = "a.txt" then some "x" else none : Store) "a.txt") :=
  ⟨by decide,
    propose_phase_no_write [("a.txt", "x")]
      (fun q => if q = "a.txt" then some "x" else none) "a.txt"
      (FsOp.readOp "a.txt") (by decide)⟩

/-! ### Commit with per-path failures (`handleApproveChanges`)

The commit loop sits inside a single `try` block:

```
try {
  for (const modifiedFile of pendingChanges) {
    await writeFileToDirectoryHandle(...)
  }
  ...
  setPendingChanges([]);
  ...
} catch (error) { ...notification... }
```

A rejected write therefore aborts the loop — later paths are not
attempted — and control jumps to `catch`, past `setPendingChanges([])`, so
the pending set is cleared only when every write succeeded. Write failures
are modelled by a predicate on paths. -/

/-- Result of one commit attempt: the resulting true store, the paths whose
writes were attempted (in order), and whether the pending set was
cleared. -/
structure CommitResult where
  store : Store
  attempted : List String
  cleared : Bool

/-- The commit loop of `handleApproveChanges` with `fails p = true` when
the write to `p` rejects: each entry is attempted in order; a failing write
aborts the loop with the store as already written, and `setPendingChanges
([])` runs only after the loop completes. -/
def runCommit (fails : String → Bool) (s : Store) : List ModifiedFile → CommitResult
  | [] => ⟨s, [], true⟩
  | mf :: rest =>
    if fails mf.filePath then ⟨s, [mf.filePath], false⟩
    else
      let r := runCommit fails (writeFileToStore s mf.filePath mf.modifiedContent) rest
      ⟨r.store, mf.filePath :: r.attempted, r.cleared⟩

/-- C6 counterexample: with pending entries for `a`, `b`, `c` where the
write to `b` fails, the commit attempts only `a` and `b` — `c` is never
attempted — and the pending set is not cleared, contradicting the claim
that remaining paths are attempted and the set is cleared regardless. -/
theorem runCommit_aborts_counterexample :
    (runCommit (fun p => p == "b") (fun _ => none)
        [⟨"a", "1"⟩, ⟨"b", "2"⟩, ⟨"c", "3"⟩]).attempted = ["a", "b"] ∧
    ¬ ((runCommit (fun p => p == "b") (fun _ => none)
        [⟨"a", "1"⟩, ⟨"b", "2"⟩, ⟨"c", "3"⟩]).attempted = ["a", "b", "c"] ∧
      (runCommit (fun p => p == "b") (fun _ => none)
        [⟨"a", "1"⟩, ⟨"b", "2"⟩, ⟨"c", "3"⟩]).cleared = true) := by
  decide

/-- C6 (amended): a write failure on one path does not roll back writes
already performed — the store keeps every write that preceded the
failure — but it aborts the commit: the failing path is the last one
attempted, the remaining paths are never attempted, and the pending set is
cleared only when every write succeeds. -/
theorem runCommit_failure_behavior (fails : String → Bool) (s : Store) :
    (∀ (pre post : List ModifiedFile) (bad : ModifiedFile),
      (∀ mf ∈ pre, fails mf.filePath = false) → fails bad.filePath = true →
      runCommit fails s (pre ++ bad :: post) =
        ⟨applyChangeSet s pre, (pre.map fun mf => mf.filePath) ++ [bad.filePath],
          false⟩) ∧
    (∀ cs : List ModifiedFile, (∀ mf ∈ cs, fails mf.filePath = false) →
      runCommit fails s cs =
        ⟨applyChangeSet s cs, cs.map fun mf => mf.filePath, true⟩) := by
  constructor
  · intro pre post bad hpre hbad
    induction pre generalizing s with
    | nil =>
      rw [List.nil_append, runCommit, if_pos hbad]
      rfl
    | cons mf pre' ih =>
      have hmf : fails mf.filePath = false := hpre mf (List.mem_cons_self mf pre')
      have hpre' : ∀ x ∈ pre', fails x.filePath = false :=
        fun x hx => hpre x (List.mem_cons_of_mem mf hx)
      rw [List.cons_append, runCommit, if_neg (by rw [hmf]; exact Bool.false_ne_true),
        ih _ hpre']
      rfl
  · intro cs hcs
    induction cs generalizing s with
    | nil => rfl
    | cons mf rest ih =>
      have hmf : fails mf.filePath = false := hcs mf (List.mem_cons_self mf rest)
      have hrest : ∀ x ∈ rest, fails x.filePath = false :=
        fun x hx => hcs x (List.mem_cons_of_mem mf hx)
      rw [runCommit, if_neg (by rw [hmf]; exact Bool.false_ne_true), ih _ hrest]
      rfl

/-- C6 witness: with the write to `b` failing after a successful write to
`a`, the commit result keeps `a`'s write, attempts exactly `a` then `b`,
and leaves the pending set uncleared. -/
theorem runCommit_failure_behavior_witness :
    runCommit (fun p => p == "b") (fun _ => none)
        ([⟨"a", "1"⟩] ++ (⟨"b", "2"⟩ : ModifiedFile) :: [⟨"c", "3"⟩]) =
      ⟨applyChangeSet (fun _ => none) [⟨"a", "1"⟩], ["a", "b"], false⟩ :=
  (runCommit_failure_behavior (fun p => p == "b") (fun _ => none)).1
    [⟨"a", "1"⟩] [⟨"c", "3"⟩] ⟨"b", "2"⟩ (by decide) (by decide)

end Schema
